import Mathlib

/-!
Shallow embedding of the WebAssembly section-editing core of the
`mridang/dprint-go` repository (package `wasm`, plus its duplicate in
`cmd/addstart/main.go`).  Bytes are modelled as `Nat` (the Go bitmask
operations make out-of-range values harmless); `uint32` arithmetic is
modelled with explicit `% 2 ^ 32`; Go's `([]T, error)` and `(T, error)`
returns are modelled with `Except String` carrying the exact
`errors.New` message strings of the source.
-/

namespace DprintWasm

/-- A WebAssembly section: a one-byte id and an opaque body
(Go `type section struct { id byte; body []byte }`). -/
structure Wsection where
  id : Nat
  body : List Nat
deriving Repr, DecidableEq

/-- Loop body of Go `readU32`: `b` is the not-yet-consumed suffix, `x` the
accumulator, `s` the current shift, `i` the number of bytes consumed so far.
Mirrors
`for i := 0; i < len(b) && i < 5; i++ { c := b[i]; x |= uint32(c&0x7f) << s;
 if c&0x80 == 0 { return x, i + 1 }; s += 7 }; return 0, 0`. -/
def readU32Aux : List Nat → Nat → Nat → Nat → Nat × Nat
  | [], _, _, _ => (0, 0)
  | c :: rest, x, s, i =>
    if 5 ≤ i then (0, 0)
    else
      let x' := (x ||| ((c &&& 0x7f) <<< s)) % 2 ^ 32
      if c &&& 0x80 = 0 then (x', i + 1)
      else readU32Aux rest x' (s + 7) (i + 1)

/-- Go `readU32`: decode a LEB128 `uint32` from the front of `b`, returning
the value and the number of bytes consumed (`0` consumed means failure). -/
def readU32 (b : List Nat) : Nat × Nat :=
  readU32Aux b 0 0 0

/-- Loop of Go `writeU32` with explicit fuel so that the definition is
structurally recursive (the kernel can then evaluate it).  One iteration is
`c := byte(x & 0x7f); x >>= 7; if x != 0 { c |= 0x80 }; out = append(out, c)`,
repeated until `x == 0`; each iteration divides `x` by `2 ^ 7`, so any fuel
`≥ x` behaves like the unbounded Go loop (`writeU32Aux_fuel` below). -/
def writeU32Aux : Nat → Nat → List Nat
  | 0, x => [x &&& 0x7f]
  | fuel + 1, x =>
    let c := x &&& 0x7f
    if x >>> 7 = 0 then [c]
    else (c ||| 0x80) :: writeU32Aux fuel (x >>> 7)

/-- Go `writeU32`: minimal LEB128 encoding of `x` (a `uint32`, so callers
supply `x < 2 ^ 32`). -/
def writeU32 (x : Nat) : List Nat :=
  writeU32Aux x x

theorem shiftRight7_lt {x : Nat} (h : x ≠ 0) : x >>> 7 < x := by
  rw [Nat.shiftRight_eq_div_pow]
  exact Nat.div_lt_self (Nat.pos_of_ne_zero h) (by norm_num)

theorem writeU32Aux_fuel : ∀ fuel fuel' x : Nat, x ≤ fuel → x ≤ fuel' →
    writeU32Aux fuel x = writeU32Aux fuel' x := by
  intro fuel
  induction fuel with
  | zero =>
    intro fuel' x hx _
    interval_cases x
    cases fuel' with
    | zero => rfl
    | succ n => simp [writeU32Aux]
  | succ n ih =>
    intro fuel' x hx hx'
    cases fuel' with
    | zero =>
      interval_cases x
      simp [writeU32Aux]
    | succ m =>
      simp only [writeU32Aux]
      by_cases h : x >>> 7 = 0
      · simp [h]
      · have hlt : x >>> 7 < x := shiftRight7_lt (by rintro rfl; simp at h)
        simp only [h, if_neg]
        rw [ih m (x >>> 7) (by omega) (by omega)]

/-- The natural unfolding equation of Go `writeU32`. -/
theorem writeU32_eq (x : Nat) :
    writeU32 x = if x >>> 7 = 0 then [x &&& 0x7f]
      else ((x &&& 0x7f) ||| 0x80) :: writeU32 (x >>> 7) := by
  cases x with
  | zero => simp [writeU32, writeU32Aux]
  | succ n =>
    show writeU32Aux (n + 1) (n + 1) = _
    simp only [writeU32Aux]
    by_cases h : (n + 1) >>> 7 = 0
    · simp [h]
    · have hlt : (n + 1) >>> 7 < n + 1 := shiftRight7_lt (by omega)
      simp only [h, if_neg]
      rw [writeU32, writeU32Aux_fuel n ((n + 1) >>> 7) ((n + 1) >>> 7)
        (by omega) (by omega)]

theorem lor_shiftLeft_eq_add {acc : Nat} (v s : Nat) (h : acc < 2 ^ s) :
    acc ||| (v <<< s) = v * 2 ^ s + acc := by
  rw [Nat.mul_comm]
  apply Nat.eq_of_testBit_eq
  intro j
  rw [Nat.testBit_or, Nat.testBit_shiftLeft, Nat.testBit_mul_pow_two_add v h j]
  by_cases hj : j < s
  · simp [hj, Nat.not_le.mpr hj]
  · have : acc < 2 ^ j := lt_of_lt_of_le h (Nat.pow_le_pow_right (by norm_num) (by omega))
    simp [hj, Nat.not_lt.mp hj, Nat.testBit_lt_two_pow this]

theorem byte_low_facts : ∀ z, z < 128 → z &&& 0x7f = z ∧ z &&& 0x80 = 0 := by decide

theorem byte_high_facts : ∀ z, z < 128 →
    (z ||| 0x80) &&& 0x7f = z ∧ ¬ ((z ||| 0x80) &&& 0x80 = 0) := by decide

theorem shiftRight7_eq_zero_iff {x : Nat} : x >>> 7 = 0 ↔ x < 128 := by
  rw [Nat.shiftRight_eq_div_pow]
  omega

/-- `writeU32` always emits at least one byte. -/
theorem writeU32_ne_nil (x : Nat) : writeU32 x ≠ [] := by
  rw [writeU32_eq]
  by_cases h : x >>> 7 = 0 <;> simp [h]

theorem writeU32_length_le : ∀ k x : Nat, x < 2 ^ (7 * (k + 1)) →
    (writeU32 x).length ≤ k + 1 := by
  intro k
  induction k with
  | zero =>
    intro x hx
    rw [writeU32_eq, if_pos (shiftRight7_eq_zero_iff.mpr (by norm_num at hx; omega))]
    simp
  | succ n ih =>
    intro x hx
    rw [writeU32_eq]
    by_cases h : x >>> 7 = 0
    · simp [h]
    · have hdiv : x >>> 7 < 2 ^ (7 * (n + 1)) := by
        rw [Nat.shiftRight_eq_div_pow]
        apply Nat.div_lt_of_lt_mul
        have he : 7 + 7 * (n + 1) = 7 * (n + 1 + 1) := by ring
        rw [← pow_add, he]
        exact hx
      rw [if_neg h]
      have := ih (x >>> 7) hdiv
      simp only [List.length_cons]
      omega

/-- Key invariant: decoding a `writeU32`-encoded value prefixed to any tail,
starting from accumulator `acc` after `i` bytes already consumed, yields the
combined value and consumes exactly the encoded bytes. -/
theorem readU32Aux_writeU32 : ∀ y : Nat, ∀ i acc : Nat, ∀ t : List Nat,
    i + (writeU32 y).length ≤ 5 → acc < 2 ^ (7 * i) →
    acc + y * 2 ^ (7 * i) < 2 ^ 32 →
    readU32Aux (writeU32 y ++ t) acc (7 * i) i =
      (acc + y * 2 ^ (7 * i), i + (writeU32 y).length) := by
  intro y
  induction y using Nat.strong_induction_on with
  | _ y ih =>
    intro i acc t hlen hacc hval
    by_cases h : y >>> 7 = 0
    · have hy : y < 128 := shiftRight7_eq_zero_iff.mp h
      rw [writeU32_eq, if_pos h] at hlen ⊢
      obtain ⟨he1, he2⟩ := byte_low_facts y hy
      simp only [List.length_cons, List.length_nil] at hlen ⊢
      simp only [List.cons_append, List.nil_append, readU32Aux]
      rw [if_neg (by omega), he1, he1, he2, if_pos rfl]
      rw [lor_shiftLeft_eq_add y (7 * i) hacc]
      rw [Nat.mod_eq_of_lt (show y * 2 ^ (7 * i) + acc < 2 ^ 32 by omega)]
      simp only [Prod.mk.injEq]
      exact ⟨by omega, by trivial⟩
    · have hy : 128 ≤ y := by
        by_contra hc
        exact h (shiftRight7_eq_zero_iff.mpr (by omega))
      rw [writeU32_eq, if_neg h] at hlen ⊢
      have hlow : y &&& 0x7f = y % 128 := by
        have h7 := Nat.and_pow_two_sub_one_eq_mod y 7
        norm_num at h7
        exact h7
      have hlt127 : y &&& 0x7f < 128 := by
        rw [hlow]; omega
      obtain ⟨hc1, hc2⟩ := byte_high_facts (y &&& 0x7f) hlt127
      simp only [List.length_cons] at hlen ⊢
      simp only [List.cons_append, List.append_eq, readU32Aux]
      rw [if_neg (by have := writeU32_ne_nil (y >>> 7); omega), hc1, if_neg hc2]
      rw [hlow, lor_shiftLeft_eq_add (y % 128) (7 * i) hacc]
      have hpow : (2 : Nat) ^ (7 * (i + 1)) = 2 ^ (7 * i) * 128 := by
        rw [show 7 * (i + 1) = 7 * i + 7 by ring, pow_add]
        norm_num
      have hmlt : (y % 128) * 2 ^ (7 * i) + acc + (y >>> 7) * 2 ^ (7 * (i + 1)) =
          acc + y * 2 ^ (7 * i) := by
        rw [Nat.shiftRight_eq_div_pow, hpow]
        have hz : y % 128 + 128 * (y / 128) = y := Nat.mod_add_div y 128
        have h7 : (2 : Nat) ^ 7 = 128 := by norm_num
        rw [h7]
        conv_rhs => rw [← hz]
        ring
      have hacc' : (y % 128) * 2 ^ (7 * i) + acc < 2 ^ (7 * (i + 1)) := by
        rw [hpow]
        have h1 : (y % 128) * 2 ^ (7 * i) ≤ 127 * 2 ^ (7 * i) :=
          Nat.mul_le_mul_right _ (by omega)
        have h2 : 127 * 2 ^ (7 * i) + 2 ^ (7 * i) = 2 ^ (7 * i) * 128 := by ring
        omega
      have hval' : ((y % 128) * 2 ^ (7 * i) + acc) + (y >>> 7) * 2 ^ (7 * (i + 1))
          < 2 ^ 32 := by omega
      rw [Nat.mod_eq_of_lt (show y % 128 * 2 ^ (7 * i) + acc < 2 ^ 32 by omega)]
      rw [show 7 * i + 7 = 7 * (i + 1) by ring]
      have hrec := ih (y >>> 7) (shiftRight7_lt (by omega)) (i + 1)
        ((y % 128) * 2 ^ (7 * i) + acc) t (by omega) hacc' hval'
      rw [hrec, hmlt]
      have hfin : i + 1 + (writeU32 (y >>> 7)).length =
          i + ((writeU32 (y >>> 7)).length + 1) := by omega
      rw [hfin]

-- Sanity checks on concrete values.
example : writeU32 0 = [0] := by decide
example : writeU32 624485 = [0xe5, 0x8e, 0x26] := by decide
example : readU32 [0xe5, 0x8e, 0x26, 0xff] = (624485, 3) := by decide
example : readU32 [0x80, 0x00] = (0, 2) := by decide
example : readU32 [] = (0, 0) := by decide

/-- For `x < 2 ^ 32` the encoding fits in 5 bytes. -/
theorem writeU32_length_le_five (x : Nat) (hx : x < 2 ^ 32) :
    (writeU32 x).length ≤ 5 :=
  writeU32_length_le 4 x (lt_of_lt_of_le hx (by norm_num))

/-- Decoding an encoded value followed by any tail consumes exactly the
encoded bytes and recovers the value. -/
theorem readU32_writeU32_append (x : Nat) (hx : x < 2 ^ 32) (t : List Nat) :
    readU32 (writeU32 x ++ t) = (x, (writeU32 x).length) := by
  have h := readU32Aux_writeU32 x 0 0 t
    (by simpa using writeU32_length_le_five x hx) (by norm_num) (by simpa using hx)
  simpa [readU32] using h

/-- The value returned by the decoder loop is always a valid `uint32`. -/
theorem readU32Aux_fst_lt : ∀ (b : List Nat) (acc s i : Nat),
    (readU32Aux b acc s i).1 < 2 ^ 32 := by
  intro b
  induction b with
  | nil => intro acc s i; simp [readU32Aux]
  | cons c rest ih =>
    intro acc s i
    simp only [readU32Aux]
    by_cases h5 : 5 ≤ i
    · simp [h5]
    · rw [if_neg h5]
      by_cases hc : c &&& 0x80 = 0
      · simp only [hc, if_pos]
        exact Nat.mod_lt _ (by norm_num)
      · rw [if_neg hc]
        exact ih _ _ _

theorem readU32_fst_lt (b : List Nat) : (readU32 b).1 < 2 ^ 32 :=
  readU32Aux_fst_lt b 0 0 0

/-- A successful decode consuming `n` bytes yields a value below `2 ^ (7 n)`
(up to the `uint32` truncation, which only shrinks it further). -/
theorem readU32Aux_val_lt : ∀ (b : List Nat) (i acc v n : Nat),
    acc < 2 ^ (7 * i) → readU32Aux b acc (7 * i) i = (v, n) → 1 ≤ n →
    v < 2 ^ (7 * n) := by
  intro b
  induction b with
  | nil =>
    intro i acc v n _ hr hn
    simp only [readU32Aux, Prod.mk.injEq] at hr
    omega
  | cons c rest ih =>
    intro i acc v n hacc hr hn
    simp only [readU32Aux] at hr
    by_cases h5 : 5 ≤ i
    · rw [if_pos h5] at hr
      simp only [Prod.mk.injEq] at hr
      omega
    · rw [if_neg h5] at hr
      have hx' : (acc ||| ((c &&& 0x7f) <<< (7 * i))) % 2 ^ 32 < 2 ^ (7 * (i + 1)) := by
        have h1 : acc < 2 ^ (7 * i + 7) :=
          lt_of_lt_of_le hacc (Nat.pow_le_pow_right (by norm_num) (by omega))
        have h2 : (c &&& 0x7f) <<< (7 * i) < 2 ^ (7 * i + 7) := by
          rw [Nat.shiftLeft_eq, pow_add]
          have : c &&& 0x7f ≤ 127 := Nat.and_le_right
          calc (c &&& 0x7f) * 2 ^ (7 * i) ≤ 127 * 2 ^ (7 * i) :=
            Nat.mul_le_mul_right _ this
          _ < 2 ^ (7 * i) * 2 ^ 7 := by
            have hp : 0 < 2 ^ (7 * i) := Nat.pos_pow_of_pos _ (by norm_num)
            norm_num
            omega
        have hor := Nat.or_lt_two_pow h1 h2
        have hmod : (acc ||| ((c &&& 0x7f) <<< (7 * i))) % 2 ^ 32 ≤
            acc ||| ((c &&& 0x7f) <<< (7 * i)) := Nat.mod_le _ _
        have hpw : (2 : Nat) ^ (7 * (i + 1)) = 2 ^ (7 * i + 7) := by
          rw [show 7 * (i + 1) = 7 * i + 7 by ring]
        omega
      by_cases hc : c &&& 0x80 = 0
      · rw [if_pos hc] at hr
        have h1 : v = (acc ||| ((c &&& 0x7f) <<< (7 * i))) % 2 ^ 32 ∧ n = i + 1 := by
          constructor <;> (cases hr; rfl)
        obtain ⟨rfl, rfl⟩ := h1
        exact hx'
      · rw [if_neg hc] at hr
        rw [show 7 * i + 7 = 7 * (i + 1) by ring] at hr
        exact ih (i + 1) _ v n hx' hr hn

theorem readU32_val_lt (b : List Nat) (v n : Nat) (h : readU32 b = (v, n))
    (hn : 1 ≤ n) : v < 2 ^ (7 * n) :=
  readU32Aux_val_lt b 0 0 v n (by norm_num) h hn

/-- C1.  For every `x < 2 ^ 32`, `writeU32 x` is a LEB128 encoding of at
most 5 bytes which `readU32` decodes back to `(x, length)`, and it is
minimal-length: no byte sequence that `readU32` fully consumes while
decoding to `x` is shorter. -/
theorem C1_leb128_roundtrip (x : Nat) (hx : x < 2 ^ 32) :
    (writeU32 x).length ≤ 5 ∧
    readU32 (writeU32 x) = (x, (writeU32 x).length) ∧
    ∀ bs : List Nat, bs ≠ [] → readU32 bs = (x, bs.length) →
      (writeU32 x).length ≤ bs.length := by
  have hlen : (writeU32 x).length ≤ 5 := writeU32_length_le_five x hx
  refine ⟨hlen, ?_, ?_⟩
  · have h := readU32_writeU32_append x hx []
    simpa using h
  · intro bs hne hdec
    by_cases h5 : 5 ≤ bs.length
    · omega
    · have hn : 1 ≤ bs.length := by
        cases bs with
        | nil => exact absurd rfl hne
        | cons a l => simp
      have hv := readU32_val_lt bs x bs.length hdec hn
      have hle := writeU32_length_le (bs.length - 1) x
        (by rw [show 7 * (bs.length - 1 + 1) = 7 * bs.length by omega]; exact hv)
      omega

/-- Witness for C1 at `x = 624485`. -/
theorem C1_leb128_roundtrip_witness :
    (writeU32 624485).length ≤ 5 ∧
    readU32 (writeU32 624485) = (624485, (writeU32 624485).length) ∧
    ∀ bs : List Nat, bs ≠ [] → readU32 bs = (624485, bs.length) →
      (writeU32 624485).length ≤ bs.length :=
  C1_leb128_roundtrip 624485 (by norm_num)

/-- C10.  `readU32` accepts non-minimal encodings (`0x80 0x00` decodes to
`(0, 2)`), and an over-wide 5-byte encoding whose fifth byte carries payload
bits above bit 31 succeeds, consuming 5 bytes, with the overflowing payload
bits silently truncated modulo `2 ^ 32` (`0x7f <<< 28 = 0x7F0000000` is cut
to `0xF0000000`). -/
theorem C10_readU32_lenient :
    readU32 [0x80, 0x00] = (0, 2) ∧
    readU32 [0x80, 0x80, 0x80, 0x80, 0x7f] = (0xF0000000, 5) ∧
    (0xF0000000 : Nat) = (0x7f <<< 28) % 2 ^ 32 := by decide

/-- Go `readName`: read a LEB128 length then that many name bytes, returning
the name and total bytes consumed (`0` on failure). -/
def readName (b : List Nat) : List Nat × Nat :=
  let l := (readU32 b).1
  let n := (readU32 b).2
  if n = 0 then ([], 0)
  else if b.length < l + n then ([], 0)
  else ((b.drop n).take l, n + l)

/-- Loop of Go `parseSections` with explicit fuel (one unit per section
record; each record consumes at least one byte, so fuel `≥ b.length` behaves
like the unbounded Go loop, see `parseSectionsAux_fuel`).  Each step reads a
one-byte id, a LEB128 size (`0` consumed ⇒ "invalid section size"), checks
the body fits (`off+int(size) > len(b)` ⇒ "section exceeds file") and slices
the body. -/
def parseSectionsAux : Nat → List Nat → Except String (List Wsection)
  | _, [] => .ok []
  | 0, _ :: _ => .error "fuel exhausted"
  | fuel + 1, id :: rest =>
    if (readU32 rest).2 = 0 then .error "invalid section size"
    else if rest.length < (readU32 rest).2 + (readU32 rest).1 then
      .error "section exceeds file"
    else
      match parseSectionsAux fuel (rest.drop ((readU32 rest).2 + (readU32 rest).1)) with
      | .ok secs =>
        .ok (⟨id, (rest.drop (readU32 rest).2).take (readU32 rest).1⟩ :: secs)
      | .error e => .error e

/-- Go `parseSections`: parse the byte stream after the 8-byte header into
an ordered list of section records. -/
def parseSections (b : List Nat) : Except String (List Wsection) :=
  parseSectionsAux b.length b

/-- Loop of Go `StripStartSection` with explicit fuel (same convention as
`parseSectionsAux`).  `none` models the Go early `return b` on structural
failure (`n == 0 || off+n+int(size) > len(rest)`); a kept record is re-emitted
as its id byte, `writeU32 size`, and its body bytes. -/
def stripAux : Nat → List Nat → Option (List Nat)
  | _, [] => some []
  | 0, _ :: _ => none
  | fuel + 1, id :: rest =>
    if (readU32 rest).2 = 0 ∨ rest.length < (readU32 rest).2 + (readU32 rest).1 then
      none
    else
      match stripAux fuel (rest.drop ((readU32 rest).2 + (readU32 rest).1)) with
      | none => none
      | some out =>
        some (if id ≠ 8 then
          id :: (writeU32 (readU32 rest).1 ++
            ((rest.drop (readU32 rest).2).take (readU32 rest).1 ++ out))
        else out)

/-- The section-stream pass of Go `StripStartSection`. -/
def stripSections (b : List Nat) : Option (List Nat) :=
  stripAux b.length b

/-- Go `StripStartSection`: drop every id-8 section; on any structural
failure (including a buffer shorter than the 8-byte header) return the
input unchanged. -/
def StripStartSection (b : List Nat) : List Nat :=
  if b.length < 8 then b
  else
    match stripSections (b.drop 8) with
    | none => b
    | some out => b.take 8 ++ out

/-- Serialization of a section list as performed by Go `rebuildModule` (and,
section-wise, by the keep branch of `StripStartSection`): per record one id
byte, `writeU32(uint32(len(body)))`, then the body verbatim. -/
def emitSections : List Wsection → List Nat
  | [] => []
  | s :: rest =>
    s.id :: (writeU32 (s.body.length % 2 ^ 32) ++ (s.body ++ emitSections rest))

/-- Go `rebuildModule`: header bytes then each record serialized. -/
def rebuildModule (header : List Nat) (secs : List Wsection) : List Nat :=
  header ++ emitSections secs

theorem parseSectionsAux_fuel : ∀ f f' b, b.length ≤ f → b.length ≤ f' →
    parseSectionsAux f b = parseSectionsAux f' b := by
  intro f
  induction f with
  | zero =>
    intro f' b hb _
    have : b = [] := List.length_eq_zero.mp (by omega)
    subst this
    cases f' <;> rfl
  | succ n ih =>
    intro f' b hb hb'
    cases b with
    | nil => cases f' <;> rfl
    | cons id rest =>
      cases f' with
      | zero => simp at hb'
      | succ m =>
        simp only [parseSectionsAux]
        by_cases h1 : (readU32 rest).2 = 0
        · simp [h1]
        · rw [if_neg h1, if_neg h1]
          by_cases h2 : rest.length < (readU32 rest).2 + (readU32 rest).1
          · rw [if_pos h2, if_pos h2]
          · rw [if_neg h2, if_neg h2]
            have hlen : (rest.drop ((readU32 rest).2 + (readU32 rest).1)).length ≤ n := by
              simp only [List.length_drop, List.length_cons] at *
              omega
            have hlen' : (rest.drop ((readU32 rest).2 + (readU32 rest).1)).length ≤ m := by
              simp only [List.length_drop, List.length_cons] at *
              omega
            rw [ih m _ hlen hlen']

theorem stripAux_fuel : ∀ f f' b, b.length ≤ f → b.length ≤ f' →
    stripAux f b = stripAux f' b := by
  intro f
  induction f with
  | zero =>
    intro f' b hb _
    have : b = [] := List.length_eq_zero.mp (by omega)
    subst this
    cases f' <;> rfl
  | succ n ih =>
    intro f' b hb hb'
    cases b with
    | nil => cases f' <;> rfl
    | cons id rest =>
      cases f' with
      | zero => simp at hb'
      | succ m =>
        simp only [stripAux]
        by_cases h1 : (readU32 rest).2 = 0 ∨
            rest.length < (readU32 rest).2 + (readU32 rest).1
        · simp [h1]
        · rw [if_neg h1, if_neg h1]
          have hlen : (rest.drop ((readU32 rest).2 + (readU32 rest).1)).length ≤ n := by
            simp only [List.length_drop, List.length_cons] at *
            omega
          have hlen' : (rest.drop ((readU32 rest).2 + (readU32 rest).1)).length ≤ m := by
            simp only [List.length_drop, List.length_cons] at *
            omega
          rw [ih m _ hlen hlen']

theorem parseSections_nil : parseSections [] = .ok [] := rfl

/-- One-step unfolding of `parseSections` matching the Go loop body. -/
theorem parseSections_cons (id : Nat) (rest : List Nat) :
    parseSections (id :: rest) =
      if (readU32 rest).2 = 0 then .error "invalid section size"
      else if rest.length < (readU32 rest).2 + (readU32 rest).1 then
        .error "section exceeds file"
      else
        match parseSections (rest.drop ((readU32 rest).2 + (readU32 rest).1)) with
        | .ok secs =>
          .ok (⟨id, (rest.drop (readU32 rest).2).take (readU32 rest).1⟩ :: secs)
        | .error e => .error e := by
  show parseSectionsAux (id :: rest).length (id :: rest) = _
  simp only [List.length_cons, parseSectionsAux]
  by_cases h1 : (readU32 rest).2 = 0
  · simp [h1]
  · rw [if_neg h1, if_neg h1]
    by_cases h2 : rest.length < (readU32 rest).2 + (readU32 rest).1
    · rw [if_pos h2, if_pos h2]
    · rw [if_neg h2, if_neg h2]
      rw [parseSectionsAux_fuel rest.length
        (rest.drop ((readU32 rest).2 + (readU32 rest).1)).length _
        (by simp only [List.length_drop]; omega) le_rfl]
      rfl

theorem stripSections_nil : stripSections [] = some [] := rfl

/-- One-step unfolding of the strip loop matching the Go loop body. -/
theorem stripSections_cons (id : Nat) (rest : List Nat) :
    stripSections (id :: rest) =
      if (readU32 rest).2 = 0 ∨ rest.length < (readU32 rest).2 + (readU32 rest).1 then
        none
      else
        match stripSections (rest.drop ((readU32 rest).2 + (readU32 rest).1)) with
        | none => none
        | some out =>
          some (if id ≠ 8 then
            id :: (writeU32 (readU32 rest).1 ++
              ((rest.drop (readU32 rest).2).take (readU32 rest).1 ++ out))
          else out) := by
  show stripAux (id :: rest).length (id :: rest) = _
  simp only [List.length_cons, stripAux]
  by_cases h1 : (readU32 rest).2 = 0 ∨ rest.length < (readU32 rest).2 + (readU32 rest).1
  · simp [h1]
  · rw [if_neg h1, if_neg h1]
    rw [stripAux_fuel rest.length
      (rest.drop ((readU32 rest).2 + (readU32 rest).1)).length _
      (by simp only [List.length_drop]; omega) le_rfl]
    rfl

/-- Every body produced by the parser has `uint32`-sized length (it is a
slice of declared size, and sizes come from `readU32`). -/
theorem parseSections_body_lt : ∀ n (b : List Nat) secs, b.length ≤ n →
    parseSections b = .ok secs → ∀ s ∈ secs, s.body.length < 2 ^ 32 := by
  intro n
  induction n with
  | zero =>
    intro b secs hb hp s hs
    have : b = [] := List.length_eq_zero.mp (by omega)
    subst this
    rw [parseSections_nil] at hp
    injection hp with h
    subst h
    simp at hs
  | succ k ih =>
    intro b secs hb hp s hs
    cases b with
    | nil =>
      rw [parseSections_nil] at hp
      injection hp with h
      subst h
      simp at hs
    | cons id rest =>
      rw [parseSections_cons] at hp
      by_cases h1 : (readU32 rest).2 = 0
      · rw [if_pos h1] at hp; cases hp
      · rw [if_neg h1] at hp
        by_cases h2 : rest.length < (readU32 rest).2 + (readU32 rest).1
        · rw [if_pos h2] at hp; cases hp
        · rw [if_neg h2] at hp
          cases hrec : parseSections (rest.drop ((readU32 rest).2 + (readU32 rest).1)) with
          | error e => rw [hrec] at hp; cases hp
          | ok secs' =>
            rw [hrec] at hp
            injection hp with h
            subst h
            rcases List.mem_cons.mp hs with hs' | hs'
            · subst hs'
              simp only [List.length_take]
              have := readU32_fst_lt rest
              omega
            · exact ih (rest.drop ((readU32 rest).2 + (readU32 rest).1)) secs'
                (by simp only [List.length_drop, List.length_cons] at *; omega)
                hrec s hs'

/-- The strip loop succeeds exactly when the parser succeeds, and then its
output is the serialization of the parsed records with id-8 records
filtered out. -/
theorem stripSections_spec : ∀ n (b : List Nat), b.length ≤ n →
    match parseSections b with
    | .error _ => stripSections b = none
    | .ok secs =>
      stripSections b = some (emitSections (secs.filter (fun s => s.id != 8))) := by
  intro n
  induction n with
  | zero =>
    intro b hb
    have : b = [] := List.length_eq_zero.mp (by omega)
    subst this
    rw [parseSections_nil]
    rw [stripSections_nil]
    rfl
  | succ k ih =>
    intro b hb
    cases b with
    | nil =>
      rw [parseSections_nil, stripSections_nil]
      rfl
    | cons id rest =>
      rw [parseSections_cons, stripSections_cons]
      by_cases h1 : (readU32 rest).2 = 0
      · simp [h1]
      · rw [if_neg h1]
        by_cases h2 : rest.length < (readU32 rest).2 + (readU32 rest).1
        · rw [if_pos h2, if_pos (Or.inr h2)]
        · rw [if_neg h2, if_neg (not_or.mpr ⟨h1, h2⟩)]
          have hlen : (rest.drop ((readU32 rest).2 + (readU32 rest).1)).length ≤ k := by
            simp only [List.length_drop, List.length_cons] at *
            omega
          have hrec := ih (rest.drop ((readU32 rest).2 + (readU32 rest).1)) hlen
          cases hp : parseSections (rest.drop ((readU32 rest).2 + (readU32 rest).1)) with
          | error e =>
            rw [hp] at hrec
            rw [hrec]
          | ok secs' =>
            rw [hp] at hrec
            rw [hrec]
            have hbodylen : ((rest.drop (readU32 rest).2).take (readU32 rest).1).length =
                (readU32 rest).1 := by
              simp only [List.length_take, List.length_drop]
              omega
            by_cases hid : id = 8
            · subst hid
              simp only [List.filter_cons]
              norm_num
            · simp only [List.filter_cons]
              have htrue : ((⟨id, (rest.drop (readU32 rest).2).take (readU32 rest).1⟩ :
                  Wsection).id != 8) = true := by
                simp [hid]
              rw [if_pos htrue, if_pos hid]
              simp only [emitSections, hbodylen]
              rw [Nat.mod_eq_of_lt (readU32_fst_lt rest)]

/-- Parsing the serialization of a record list with `uint32`-sized bodies
recovers exactly that list. -/
theorem parseSections_emit : ∀ secs : List Wsection,
    (∀ s ∈ secs, s.body.length < 2 ^ 32) →
    parseSections (emitSections secs) = .ok secs := by
  intro secs
  induction secs with
  | nil => intro _; rfl
  | cons s rest ih =>
    intro hb
    have hs : s.body.length < 2 ^ 32 := hb s (by simp)
    have hmod : s.body.length % 2 ^ 32 = s.body.length := Nat.mod_eq_of_lt hs
    simp only [emitSections, hmod]
    rw [parseSections_cons]
    have hread := readU32_writeU32_append s.body.length hs (s.body ++ emitSections rest)
    rw [hread]
    have hw1 : 1 ≤ (writeU32 s.body.length).length := by
      have := writeU32_ne_nil s.body.length
      cases hwe : writeU32 s.body.length with
      | nil => exact absurd hwe this
      | cons a l => simp
    rw [if_neg (by omega)]
    have hlen : (writeU32 s.body.length ++ (s.body ++ emitSections rest)).length =
        (writeU32 s.body.length).length + s.body.length + (emitSections rest).length := by
      simp [List.length_append]
      omega
    rw [if_neg (by rw [hlen]; omega)]
    have hdrop : (writeU32 s.body.length ++ (s.body ++ emitSections rest)).drop
        (writeU32 s.body.length).length = s.body ++ emitSections rest :=
      List.drop_left _ _
    have hdrop2 : (writeU32 s.body.length ++ (s.body ++ emitSections rest)).drop
        ((writeU32 s.body.length).length + s.body.length) = emitSections rest := by
      rw [← List.append_assoc]
      have h := List.drop_left (writeU32 s.body.length ++ s.body) (emitSections rest)
      rw [List.length_append] at h
      exact h
    rw [hdrop2]
    rw [ih (fun x hx => hb x (by simp [hx]))]
    rw [hdrop]
    have htake : (s.body ++ emitSections rest).take s.body.length = s.body :=
      List.take_left _ _
    rw [htake]

theorem drop_append_of_length {α : Type} {l1 l2 : List α} {n : Nat}
    (h : l1.length = n) : (l1 ++ l2).drop n = l2 := by
  subst h
  exact List.drop_left _ _

theorem take_append_of_length {α : Type} {l1 l2 : List α} {n : Nat}
    (h : l1.length = n) : (l1 ++ l2).take n = l1 := by
  subst h
  exact List.take_left _ _

theorem stripSections_of_error (b : List Nat) (e : String)
    (h : parseSections b = .error e) : stripSections b = none := by
  have hs := stripSections_spec b.length b le_rfl
  rw [h] at hs
  exact hs

theorem stripSections_of_ok (b : List Nat) (secs : List Wsection)
    (h : parseSections b = .ok secs) :
    stripSections b = some (emitSections (secs.filter (fun s => s.id != 8))) := by
  have hs := stripSections_spec b.length b le_rfl
  rw [h] at hs
  exact hs

/-- `StripStartSection` on a buffer whose section stream parses: keep the
8 header bytes, then re-emit the non-id-8 records. -/
theorem strip_ok_eq (b : List Nat) (secs : List Wsection) (h8 : ¬ b.length < 8)
    (hp : parseSections (b.drop 8) = .ok secs) :
    StripStartSection b = b.take 8 ++ emitSections (secs.filter (fun s => s.id != 8)) := by
  unfold StripStartSection
  rw [if_neg h8, stripSections_of_ok _ secs hp]

/-- `StripStartSection` returns its input on any structural failure. -/
theorem strip_fail_eq (b : List Nat)
    (h : b.length < 8 ∨ ∃ e, parseSections (b.drop 8) = .error e) :
    StripStartSection b = b := by
  unfold StripStartSection
  by_cases h8 : b.length < 8
  · rw [if_pos h8]
  · rw [if_neg h8]
    rcases h with h | ⟨e, he⟩
    · exact absurd h h8
    · rw [stripSections_of_error _ e he]

-- Concrete example modules used by witnesses/counterexamples.

/-- A valid 8-byte Wasm header (magic `\0asm`, version 1). -/
def exHeader : List Nat := [0x00, 0x61, 0x73, 0x6d, 1, 0, 0, 0]

/-- Body of an export section: 1 export, name `_initialize` (11 bytes),
kind 0 (function), index 0. -/
def exExportBody : List Nat :=
  [1, 11, 95, 105, 110, 105, 116, 105, 97, 108, 105, 122, 101, 0, 0]

/-- A canonical module: header plus one export section (id 7, size 15). -/
def exModule : List Nat := exHeader ++ [7, 15] ++ exExportBody

/-- `exModule` followed by a start section (id 8, size 1, index 0). -/
def exModuleStart : List Nat := exModule ++ [8, 1, 0]

/-- C3.  `StripStartSection` never fails: on any structural parse failure
(buffer shorter than the 8-byte header, undecodable section size, or a body
overrunning the buffer — the latter two being exactly the error cases of the
section parser) it returns the original input unchanged. -/
theorem C3_strip_fail_open (b : List Nat)
    (h : b.length < 8 ∨ ∃ e, parseSections (b.drop 8) = .error e) :
    StripStartSection b = b :=
  strip_fail_eq b h

/-- Witness for C3: a buffer with a truncated section stream is returned
unchanged. -/
theorem C3_strip_fail_open_witness :
    StripStartSection [0, 1, 2, 3, 4, 5, 6, 7, 1] = [0, 1, 2, 3, 4, 5, 6, 7, 1] :=
  C3_strip_fail_open _ (Or.inr ⟨"invalid section size", rfl⟩)

/-- C2 (amended).  For every buffer whose section stream after the 8-byte
header parses, `StripStartSection` returns the header followed by every
section whose id is not 8, in order, each with its original id byte and body
bytes but with its size re-encoded as the minimal LEB128 form
`writeU32 size` (byte-identical to the input only when the input size bytes
were already minimal). -/
theorem C2_strip_reemits (b : List Nat) (secs : List Wsection)
    (h8 : 8 ≤ b.length) (hp : parseSections (b.drop 8) = .ok secs) :
    StripStartSection b =
      b.take 8 ++ emitSections (secs.filter (fun s => s.id != 8)) :=
  strip_ok_eq b secs (by omega) hp

/-- Witness for C2 (amended) on a module with an export and a start
section. -/
theorem C2_strip_reemits_witness :
    StripStartSection exModuleStart =
      exModuleStart.take 8 ++
        emitSections (([⟨7, exExportBody⟩, ⟨8, [0]⟩] : List Wsection).filter
          (fun s => s.id != 8)) :=
  C2_strip_reemits exModuleStart [⟨7, exExportBody⟩, ⟨8, [0]⟩] (by decide) rfl

/-- C2 counterexample: the claim says every non-start section is re-emitted
byte-for-byte ("same size bytes"), which would force the output to equal the
input here; but on a section whose size `0` is encoded non-minimally as
`0x80 0x00`, `StripStartSection` re-encodes the size and the output differs
from the input, although the stream parses and contains no id-8 section. -/
theorem C2_strip_reemits_counterexample :
    parseSections ([0, 0x61, 0x73, 0x6d, 1, 0, 0, 0, 1, 0x80, 0x00].drop 8) =
        .ok [⟨1, []⟩] ∧
    (∀ s ∈ [(⟨1, []⟩ : Wsection)], s.id ≠ 8) ∧
    StripStartSection [0, 0x61, 0x73, 0x6d, 1, 0, 0, 0, 1, 0x80, 0x00] ≠
      [0, 0x61, 0x73, 0x6d, 1, 0, 0, 0, 1, 0x80, 0x00] := by
  refine ⟨rfl, by decide, by decide⟩

/-- C5.  `StripStartSection` is idempotent on every byte buffer. -/
theorem C5_strip_idempotent (b : List Nat) :
    StripStartSection (StripStartSection b) = StripStartSection b := by
  by_cases h8 : b.length < 8
  · have hb : StripStartSection b = b := strip_fail_eq b (Or.inl h8)
    rw [hb, hb]
  · cases hp : parseSections (b.drop 8) with
    | error e =>
      have hb : StripStartSection b = b := strip_fail_eq b (Or.inr ⟨e, hp⟩)
      rw [hb, hb]
    | ok secs =>
      have hb := strip_ok_eq b secs h8 hp
      have hlen8 : (b.take 8).length = 8 := by
        rw [List.length_take]
        omega
      have hfsecs : ∀ s ∈ secs.filter (fun s => s.id != 8), s.body.length < 2 ^ 32 :=
        fun s hs => parseSections_body_lt (b.drop 8).length (b.drop 8) secs le_rfl hp s
          (List.mem_of_mem_filter hs)
      have hpout : parseSections (emitSections (secs.filter (fun s => s.id != 8))) =
          .ok (secs.filter (fun s => s.id != 8)) :=
        parseSections_emit _ hfsecs
      have hdropout : (b.take 8 ++ emitSections (secs.filter (fun s => s.id != 8))).drop 8 =
          emitSections (secs.filter (fun s => s.id != 8)) :=
        drop_append_of_length hlen8
      have htakeout : (b.take 8 ++ emitSections (secs.filter (fun s => s.id != 8))).take 8 =
          b.take 8 :=
        take_append_of_length hlen8
      have hff : (secs.filter (fun s => s.id != 8)).filter (fun s => s.id != 8) =
          secs.filter (fun s => s.id != 8) :=
        List.filter_eq_self.mpr (fun s hs => (List.mem_filter.mp hs).2)
      rw [hb]
      have hout8 : ¬ (b.take 8 ++ emitSections (secs.filter (fun s => s.id != 8))).length < 8 := by
        rw [List.length_append, hlen8]
        omega
      have hpo : parseSections ((b.take 8 ++
          emitSections (secs.filter (fun s => s.id != 8))).drop 8) =
          .ok (secs.filter (fun s => s.id != 8)) := by
        rw [hdropout]
        exact hpout
      rw [strip_ok_eq _ _ hout8 hpo, hff, htakeout]

/-- Go `ensureMagic`: reject buffers shorter than 8 bytes, with wrong magic
bytes `00 61 73 6d`, or with little-endian version word different from 1. -/
def ensureMagic (b : List Nat) : Except String Unit :=
  if b.length < 8 then .error "file too small"
  else if b.getD 0 0 ≠ 0x00 ∨ b.getD 1 0 ≠ 0x61 ∨ b.getD 2 0 ≠ 0x73 ∨
      b.getD 3 0 ≠ 0x6d then .error "bad wasm magic"
  else if b.getD 4 0 + 256 * b.getD 5 0 + 65536 * b.getD 6 0 +
      16777216 * b.getD 7 0 ≠ 1 then .error "unsupported wasm version"
  else .ok ()

/-- The byte list of the ASCII name `_initialize`. -/
def initName : List Nat := [95, 105, 110, 105, 116, 105, 97, 108, 105, 122, 101]

/-- Loop of Go `scanExportsForInitialize` (recursion on the remaining export
count; `off` is the current offset into the section body): read a name, a
kind byte, and a LEB128 index; return the index of the first function-kind
(`0x00`) export named `_initialize`. -/
def scanExportsAux (b : List Nat) : Nat → Nat → Except String (Option Nat)
  | _, 0 => .ok none
  | off, count + 1 =>
    if (readName (b.drop off)).2 = 0 then .error "bad export name"
    else
      if b.length ≤ off + (readName (b.drop off)).2 then .error "truncated export kind"
      else
        if (readU32 (b.drop (off + (readName (b.drop off)).2 + 1))).2 = 0 then
          .error "bad export index"
        else if b.getD (off + (readName (b.drop off)).2) 0 = 0 ∧
            (readName (b.drop off)).1 = initName then
          .ok (some (readU32 (b.drop (off + (readName (b.drop off)).2 + 1))).1)
        else
          scanExportsAux b
            (off + (readName (b.drop off)).2 + 1 +
              (readU32 (b.drop (off + (readName (b.drop off)).2 + 1))).2) count

/-- Go `scanExportsForInitialize`: read the export count then scan. -/
def scanExportsForInit (b : List Nat) : Except String (Option Nat) :=
  if (readU32 b).2 = 0 then .error "bad export count"
  else scanExportsAux b (readU32 b).2 (readU32 b).1

/-- Go `findInitializeIndex`: scan every export section (id 7) in order,
returning the first hit; error after all have been scanned without one. -/
def findInitializeIndex : List Wsection → Except String Nat
  | [] => .error "export _initialize not found"
  | s :: rest =>
    if s.id = 7 then
      match scanExportsForInit s.body with
      | .error e => .error e
      | .ok (some idx) => .ok idx
      | .ok none => findInitializeIndex rest
    else findInitializeIndex rest

/-- Go `dropStartSection`: remove every record with id 8, keeping order. -/
def dropStartSection (secs : List Wsection) : List Wsection :=
  secs.filter (fun s => s.id != 8)

/-- Go `buildStartSection`: a fresh id-8 record whose body is the LEB128
encoding of the function index. -/
def buildStartSection (fnIndex : Nat) : Wsection :=
  ⟨8, writeU32 fnIndex⟩

/-- Go `insertStartSection`: scan to the first record whose id exceeds 8
(`for i < len(secs) && secs[i].id <= 8 { i++ }`) and insert there. -/
def insertStartSection (secs : List Wsection) (start : Wsection) : List Wsection :=
  match secs with
  | [] => [start]
  | s :: rest =>
    if s.id ≤ 8 then s :: insertStartSection rest start
    else start :: s :: rest

/-- Go `AddStartSection`: validate header, parse sections, find the
`_initialize` export index, drop any existing start section, insert the
fresh one canonically, reserialize. -/
def AddStartSection (data : List Nat) : Except String (List Nat) :=
  match ensureMagic data with
  | .error e => .error e
  | .ok _ =>
    match parseSections (data.drop 8) with
    | .error e => .error e
    | .ok secs =>
      match findInitializeIndex secs with
      | .error e => .error e
      | .ok fnIndex =>
        .ok (rebuildModule (data.take 8)
          (insertStartSection (dropStartSection secs) (buildStartSection fnIndex)))

-- Sanity checks of the pipeline on the concrete modules.
example : parseSections (exModule.drop 8) = .ok [⟨7, exExportBody⟩] := rfl
example : findInitializeIndex [⟨7, exExportBody⟩] = .ok 0 := rfl
example : AddStartSection exModule = .ok exModuleStart := rfl
example : StripStartSection exModuleStart = exModule := by decide
example : AddStartSection [] = .error "file too small" := rfl

theorem ensureMagic_ok_len {m : List Nat} (h : ensureMagic m = .ok ()) :
    8 ≤ m.length := by
  by_contra hc
  unfold ensureMagic at h
  rw [if_pos (by omega)] at h
  cases h

/-- `insertStartSection` splits the list at the first record with id above 8. -/
theorem insertStartSection_eq (secs : List Wsection) (start : Wsection) :
    insertStartSection secs start =
      secs.takeWhile (fun s => decide (s.id ≤ 8)) ++
        start :: secs.dropWhile (fun s => decide (s.id ≤ 8)) := by
  induction secs with
  | nil => rfl
  | cons s rest ih =>
    simp only [insertStartSection, List.takeWhile_cons, List.dropWhile_cons]
    by_cases h : s.id ≤ 8
    · simp [h, ih]
    · simp [h]

theorem mem_insertStartSection {x : Wsection} {secs : List Wsection}
    {start : Wsection} (h : x ∈ insertStartSection secs start) :
    x ∈ secs ∨ x = start := by
  rw [insertStartSection_eq] at h
  rcases List.mem_append.mp h with h | h
  · exact Or.inl ((List.takeWhile_sublist _).mem h)
  · rcases List.mem_cons.mp h with h | h
    · exact Or.inr h
    · exact Or.inl ((List.dropWhile_sublist _).mem h)

/-- Filtering id-8 records out of an insertion into an id-8-free list gives
back the list. -/
theorem filter_ne8_insert (secs : List Wsection) (start : Wsection)
    (h8 : start.id = 8) (hall : ∀ s ∈ secs, s.id ≠ 8) :
    (insertStartSection secs start).filter (fun s => s.id != 8) = secs := by
  rw [insertStartSection_eq, List.filter_append, List.filter_cons]
  have hstart : ((start.id != 8) : Bool) = false := by simp [h8]
  rw [hstart]
  simp only [Bool.false_eq_true, if_false]
  have h1 : (secs.takeWhile (fun s => decide (s.id ≤ 8))).filter (fun s => s.id != 8) =
      secs.takeWhile (fun s => decide (s.id ≤ 8)) :=
    List.filter_eq_self.mpr (fun s hs => by
      simp only [bne_iff_ne, ne_eq]
      exact hall s ((List.takeWhile_sublist _).mem hs))
  have h2 : (secs.dropWhile (fun s => decide (s.id ≤ 8))).filter (fun s => s.id != 8) =
      secs.dropWhile (fun s => decide (s.id ≤ 8)) :=
    List.filter_eq_self.mpr (fun s hs => by
      simp only [bne_iff_ne, ne_eq]
      exact hall s ((List.dropWhile_sublist _).mem hs))
  rw [h1, h2, List.takeWhile_append_dropWhile]

/-- Inserting one id-8 record into an id-8-free list yields exactly one
id-8 record. -/
theorem countP_insert_eq_one (secs : List Wsection) (start : Wsection)
    (h8 : start.id = 8) (hall : ∀ s ∈ secs, s.id ≠ 8) :
    (insertStartSection secs start).countP (fun s => s.id == 8) = 1 := by
  rw [insertStartSection_eq, List.countP_append, List.countP_cons]
  have h1 : (secs.takeWhile (fun s => decide (s.id ≤ 8))).countP (fun s => s.id == 8) = 0 :=
    List.countP_eq_zero.mpr (fun s hs => by
      simp only [beq_iff_eq]
      exact hall s ((List.takeWhile_sublist _).mem hs))
  have h2 : (secs.dropWhile (fun s => decide (s.id ≤ 8))).countP (fun s => s.id == 8) = 0 :=
    List.countP_eq_zero.mpr (fun s hs => by
      simp only [beq_iff_eq]
      exact hall s ((List.dropWhile_sublist _).mem hs))
  have h3 : ((start.id == 8) : Bool) = true := by simp [h8]
  rw [h1, h2, h3]
  simp

/-- Inserting an id-8 record via `insertStartSection` into a list with
non-decreasing ids keeps the ids non-decreasing. -/
theorem pairwise_insertStartSection {secs : List Wsection} {start : Wsection}
    (h8 : start.id = 8)
    (h : List.Pairwise (fun a b : Wsection => a.id ≤ b.id) secs) :
    List.Pairwise (fun a b : Wsection => a.id ≤ b.id)
      (insertStartSection secs start) := by
  induction secs with
  | nil =>
    simp only [insertStartSection]
    exact List.pairwise_singleton _ _
  | cons s rest ih =>
    obtain ⟨hs, hrest⟩ := List.pairwise_cons.mp h
    simp only [insertStartSection]
    by_cases hle : s.id ≤ 8
    · rw [if_pos hle]
      refine List.pairwise_cons.mpr ⟨?_, ih hrest⟩
      intro b hb
      rcases mem_insertStartSection hb with hb | hb
      · exact hs b hb
      · subst hb; omega
    · rw [if_neg hle]
      refine List.pairwise_cons.mpr ⟨?_, h⟩
      intro b hb
      rcases List.mem_cons.mp hb with hb | hb
      · subst hb; omega
      · have := hs b hb; omega

/-- If every export section scans clean without a hit, the lookup fails with
the not-found error. -/
theorem findInitializeIndex_not_found : ∀ secs : List Wsection,
    (∀ s ∈ secs, s.id = 7 → scanExportsForInit s.body = .ok none) →
    findInitializeIndex secs = .error "export _initialize not found" := by
  intro secs
  induction secs with
  | nil => intro _; rfl
  | cons s rest ih =>
    intro h
    simp only [findInitializeIndex]
    by_cases h7 : s.id = 7
    · rw [if_pos h7, h s (by simp) h7]
      exact ih (fun x hx => h x (by simp [hx]))
    · rw [if_neg h7]
      exact ih (fun x hx => h x (by simp [hx]))

/-- Any index returned by the export-scanner loop is a `uint32` value. -/
theorem scanExportsAux_idx_lt : ∀ (count : Nat) (b : List Nat) (off idx : Nat),
    scanExportsAux b off count = .ok (some idx) → idx < 2 ^ 32 := by
  intro count
  induction count with
  | zero =>
    intro b off idx h
    simp only [scanExportsAux] at h
    injection h with h
    cases h
  | succ k ih =>
    intro b off idx h
    simp only [scanExportsAux] at h
    by_cases h1 : (readName (b.drop off)).2 = 0
    · rw [if_pos h1] at h; cases h
    · rw [if_neg h1] at h
      by_cases h2 : b.length ≤ off + (readName (b.drop off)).2
      · rw [if_pos h2] at h; cases h
      · rw [if_neg h2] at h
        by_cases h3 : (readU32 (b.drop (off + (readName (b.drop off)).2 + 1))).2 = 0
        · rw [if_pos h3] at h; cases h
        · rw [if_neg h3] at h
          by_cases h4 : b.getD (off + (readName (b.drop off)).2) 0 = 0 ∧
              (readName (b.drop off)).1 = initName
          · rw [if_pos h4] at h
            injection h with h
            injection h with h
            subst h
            exact readU32_fst_lt _
          · rw [if_neg h4] at h
            exact ih b _ idx h

theorem findInitializeIndex_lt : ∀ (secs : List Wsection) (i : Nat),
    findInitializeIndex secs = .ok i → i < 2 ^ 32 := by
  intro secs
  induction secs with
  | nil => intro i h; cases h
  | cons s rest ih =>
    intro i h
    simp only [findInitializeIndex] at h
    by_cases h7 : s.id = 7
    · rw [if_pos h7] at h
      cases hscan : scanExportsForInit s.body with
      | error e => rw [hscan] at h; cases h
      | ok o =>
        rw [hscan] at h
        cases o with
        | none => exact ih i h
        | some idx =>
          injection h with h
          subst h
          unfold scanExportsForInit at hscan
          by_cases hc : (readU32 s.body).2 = 0
          · rw [if_pos hc] at hscan; cases hscan
          · rw [if_neg hc] at hscan
            exact scanExportsAux_idx_lt _ _ _ _ hscan
    · rw [if_neg h7] at h
      exact ih i h

/-- C4 (amended).  For a module with a valid header, successfully parsing
sections in non-decreasing id order, no id-8 section, a function export
`_initialize` (at index `i`), and — the amendment — minimally encoded
section sizes (expressed as: the module equals the re-serialization of its
own parse), stripping the result of `AddStartSection` restores the module
byte-for-byte. -/
theorem C4_add_strip_roundtrip (m : List Nat) (secs : List Wsection) (i : Nat)
    (hm : ensureMagic m = .ok ())
    (hp : parseSections (m.drop 8) = .ok secs)
    (_hsorted : List.Pairwise (fun a b : Wsection => a.id ≤ b.id) secs)
    (hno8 : ∀ s ∈ secs, s.id ≠ 8)
    (hf : findInitializeIndex secs = .ok i)
    (hcanon : m = m.take 8 ++ emitSections secs) :
    ∃ out, AddStartSection m = .ok out ∧ StripStartSection out = m := by
  have hlen8 : (m.take 8).length = 8 := by
    have := ensureMagic_ok_len hm
    rw [List.length_take]
    omega
  have hdropsecs : dropStartSection secs = secs :=
    List.filter_eq_self.mpr (fun s hs => by
      simp only [bne_iff_ne, ne_eq]
      exact hno8 s hs)
  have hadd : AddStartSection m =
      .ok (m.take 8 ++ emitSections
        (insertStartSection secs (buildStartSection i))) := by
    unfold AddStartSection rebuildModule
    simp only [hm, hp, hf, hdropsecs]
  refine ⟨_, hadd, ?_⟩
  have hbodies : ∀ s ∈ insertStartSection secs (buildStartSection i),
      s.body.length < 2 ^ 32 := by
    intro s hs
    rcases mem_insertStartSection hs with hs | hs
    · exact parseSections_body_lt (m.drop 8).length (m.drop 8) secs le_rfl hp s hs
    · subst hs
      show (writeU32 i).length < 2 ^ 32
      have := writeU32_length_le_five i (findInitializeIndex_lt secs i hf)
      omega
  have hpe : parseSections ((m.take 8 ++ emitSections
      (insertStartSection secs (buildStartSection i))).drop 8) =
      .ok (insertStartSection secs (buildStartSection i)) := by
    rw [drop_append_of_length hlen8]
    exact parseSections_emit _ hbodies
  have hlen' : ¬ (m.take 8 ++ emitSections
      (insertStartSection secs (buildStartSection i))).length < 8 := by
    rw [List.length_append, hlen8]
    omega
  rw [strip_ok_eq _ _ hlen' hpe, take_append_of_length hlen8,
    filter_ne8_insert secs (buildStartSection i) rfl hno8]
  exact hcanon.symm

/-- Witness for C4 on the canonical example module. -/
theorem C4_add_strip_roundtrip_witness :
    ∃ out, AddStartSection exModule = .ok out ∧ StripStartSection out = exModule :=
  C4_add_strip_roundtrip exModule [⟨7, exExportBody⟩] 0 rfl rfl (by decide)
    (by decide) rfl (by decide)

/-- Like `exModule`, but the export section's size 15 is LEB128-encoded
non-minimally as the two bytes `0x8f 0x00`. -/
def exModuleFatSize : List Nat := exHeader ++ [7, 0x8f, 0x00] ++ exExportBody

/-- C4 counterexample.  A module satisfying every hypothesis of the original
claim (valid header, parsing sections, canonical order, no id-8 section,
`_initialize` function export) for which strip-after-add is NOT the
identity: the non-minimally encoded section size is re-encoded minimally by
`rebuildModule`, so the round trip returns a different byte sequence. -/
theorem C4_add_strip_roundtrip_counterexample :
    ensureMagic exModuleFatSize = .ok () ∧
    parseSections (exModuleFatSize.drop 8) = .ok [⟨7, exExportBody⟩] ∧
    List.Pairwise (fun a b : Wsection => a.id ≤ b.id)
      [(⟨7, exExportBody⟩ : Wsection)] ∧
    (∀ s ∈ [(⟨7, exExportBody⟩ : Wsection)], s.id ≠ 8) ∧
    findInitializeIndex [⟨7, exExportBody⟩] = .ok 0 ∧
    AddStartSection exModuleFatSize = .ok exModuleStart ∧
    StripStartSection exModuleStart ≠ exModuleFatSize :=
  ⟨rfl, rfl, by decide, by decide, rfl, rfl, by decide⟩

/-- C6 (amended).  `insertStartSection` inserts the new record before the
first record whose id exceeds 8 (after the initial run of records with
id `≤ 8`), and when the input records are in non-decreasing id order —
as in a canonically ordered module — the `AddStartSection` editing pipeline
(`dropStartSection` then `insertStartSection` of the built start section)
yields records in non-decreasing id order. -/
theorem C6_insert_canonical (secs : List Wsection) (i : Nat) :
    (∀ start : Wsection, insertStartSection secs start =
      secs.takeWhile (fun s => decide (s.id ≤ 8)) ++
        start :: secs.dropWhile (fun s => decide (s.id ≤ 8))) ∧
    (List.Pairwise (fun a b : Wsection => a.id ≤ b.id) secs →
      List.Pairwise (fun a b : Wsection => a.id ≤ b.id)
        (insertStartSection (dropStartSection secs) (buildStartSection i))) := by
  refine ⟨fun start => insertStartSection_eq secs start, fun hs => ?_⟩
  exact pairwise_insertStartSection rfl (hs.sublist (List.filter_sublist secs))

/-- Witness for C6 on a sorted section list. -/
theorem C6_insert_canonical_witness :
    List.Pairwise (fun a b : Wsection => a.id ≤ b.id)
      (insertStartSection (dropStartSection [⟨7, []⟩, ⟨9, []⟩])
        (buildStartSection 0)) :=
  (C6_insert_canonical [⟨7, []⟩, ⟨9, []⟩] 0).2 (by decide)

/-- A parseable module whose sections are NOT in canonical order: a section
with id 10 precedes the export section. -/
def exModuleUnsorted : List Nat := exHeader ++ [10, 0] ++ ([7, 15] ++ exExportBody)

/-- C6 counterexample.  On an unsorted input, `insertStartSection` does NOT
insert after the last record with id ≤ 8 (it inserts before the first record
with id > 8, here position 0), and `AddStartSection` accepts the module yet
produces a section sequence whose ids `[8, 10, 7]` are not non-decreasing. -/
theorem C6_insert_canonical_counterexample :
    insertStartSection [⟨10, []⟩, ⟨7, []⟩] ⟨8, [0]⟩ =
      [⟨8, [0]⟩, ⟨10, []⟩, ⟨7, []⟩] ∧
    insertStartSection [⟨10, []⟩, ⟨7, []⟩] ⟨8, [0]⟩ ≠
      [⟨10, []⟩, ⟨7, []⟩, ⟨8, [0]⟩] ∧
    AddStartSection exModuleUnsorted =
      .ok (exHeader ++ [8, 1, 0, 10, 0, 7, 15] ++ exExportBody) ∧
    parseSections ((exHeader ++ [8, 1, 0, 10, 0, 7, 15] ++ exExportBody).drop 8) =
      .ok [⟨8, [0]⟩, ⟨10, []⟩, ⟨7, exExportBody⟩] ∧
    ¬ List.Pairwise (fun a b : Wsection => a.id ≤ b.id)
      [(⟨8, [0]⟩ : Wsection), ⟨10, []⟩, ⟨7, exExportBody⟩] :=
  ⟨by decide, by decide, rfl, rfl, by decide⟩

/-- C7.  For a valid module containing id-8 sections and a function export
`_initialize` found at index `i`: `AddStartSection` succeeds and its output
parses to a section list with exactly one id-8 record, whose body is
`writeU32 i`, while the non-id-8 records are exactly those of the input in
their original order — the old start records are replaced, never kept. -/
theorem C7_start_replaced (m : List Nat) (secs : List Wsection) (i : Nat)
    (hm : ensureMagic m = .ok ())
    (hp : parseSections (m.drop 8) = .ok secs)
    (hstart : ∃ s ∈ secs, s.id = 8)
    (hf : findInitializeIndex secs = .ok i) :
    ∃ out outSecs, AddStartSection m = .ok out ∧
      parseSections (out.drop 8) = .ok outSecs ∧
      outSecs.countP (fun s => s.id == 8) = 1 ∧
      (∀ s ∈ outSecs, s.id = 8 → s.body = writeU32 i) ∧
      outSecs.filter (fun s => s.id != 8) = dropStartSection secs := by
  have hlen8 : (m.take 8).length = 8 := by
    have := ensureMagic_ok_len hm
    rw [List.length_take]
    omega
  have hall : ∀ s ∈ dropStartSection secs, s.id ≠ 8 := by
    intro s hs
    unfold dropStartSection at hs
    have h2 := (List.mem_filter.mp hs).2
    simpa using h2
  have hadd : AddStartSection m =
      .ok (m.take 8 ++ emitSections
        (insertStartSection (dropStartSection secs) (buildStartSection i))) := by
    unfold AddStartSection rebuildModule
    simp only [hm, hp, hf]
  have hbodies : ∀ s ∈ insertStartSection (dropStartSection secs) (buildStartSection i),
      s.body.length < 2 ^ 32 := by
    intro s hs
    rcases mem_insertStartSection hs with hs | hs
    · exact parseSections_body_lt (m.drop 8).length (m.drop 8) secs le_rfl hp s
        (List.mem_of_mem_filter hs)
    · subst hs
      show (writeU32 i).length < 2 ^ 32
      have := writeU32_length_le_five i (findInitializeIndex_lt secs i hf)
      omega
  have hpe : parseSections ((m.take 8 ++ emitSections
      (insertStartSection (dropStartSection secs) (buildStartSection i))).drop 8) =
      .ok (insertStartSection (dropStartSection secs) (buildStartSection i)) := by
    rw [drop_append_of_length hlen8]
    exact parseSections_emit _ hbodies
  refine ⟨_, _, hadd, hpe,
    countP_insert_eq_one (dropStartSection secs) (buildStartSection i) rfl hall,
    ?_, filter_ne8_insert (dropStartSection secs) (buildStartSection i) rfl hall⟩
  intro s hs h8
  rcases mem_insertStartSection hs with hs | hs
  · exact absurd h8 (hall s hs)
  · subst hs
    rfl

/-- Witness for C7 on the example module that already has a start section. -/
theorem C7_start_replaced_witness :
    ∃ out outSecs, AddStartSection exModuleStart = .ok out ∧
      parseSections (out.drop 8) = .ok outSecs ∧
      outSecs.countP (fun s => s.id == 8) = 1 ∧
      (∀ s ∈ outSecs, s.id = 8 → s.body = writeU32 0) ∧
      outSecs.filter (fun s => s.id != 8) =
        dropStartSection [⟨7, exExportBody⟩, ⟨8, [0]⟩] :=
  C7_start_replaced exModuleStart [⟨7, exExportBody⟩, ⟨8, [0]⟩] 0 rfl rfl
    (by decide) rfl

/-- C8.  For a structurally valid module whose export sections all scan
clean without containing a function-kind export named `_initialize`,
`AddStartSection` fails with the not-found error and produces no output;
that error message is distinct from every header/parse error message. -/
theorem C8_not_found (m : List Nat) (secs : List Wsection)
    (hm : ensureMagic m = .ok ())
    (hp : parseSections (m.drop 8) = .ok secs)
    (hscan : ∀ s ∈ secs, s.id = 7 → scanExportsForInit s.body = .ok none) :
    AddStartSection m = .error "export _initialize not found" ∧
    "export _initialize not found" ∉ ["file too small", "bad wasm magic",
      "unsupported wasm version", "invalid section size", "section exceeds file",
      "bad export count", "bad export name", "truncated export kind",
      "bad export index"] := by
  constructor
  · unfold AddStartSection
    simp only [hm, hp, findInitializeIndex_not_found secs hscan]
  · decide

/-- A module whose only export is a function named `foo`. -/
def exModuleNoInit : List Nat := exHeader ++ [7, 7] ++ [1, 3, 102, 111, 111, 0, 0]

/-- Witness for C8 on a module exporting only `foo`. -/
theorem C8_not_found_witness :
    AddStartSection exModuleNoInit = .error "export _initialize not found" ∧
    "export _initialize not found" ∉ ["file too small", "bad wasm magic",
      "unsupported wasm version", "invalid section size", "section exceeds file",
      "bad export count", "bad export name", "truncated export kind",
      "bad export index"] :=
  C8_not_found exModuleNoInit [⟨7, [1, 3, 102, 111, 111, 0, 0]⟩] rfl rfl (by
    intro s hs h7
    rw [List.mem_singleton] at hs
    subst hs
    rfl)

/-- C9.  A buffer shorter than 8 bytes, with wrong magic bytes, or with a
little-endian version word other than 1 makes `AddStartSection` fail with
the corresponding `ensureMagic` header error (so the rejection comes from
the header check, before any section parsing), and no output is produced. -/
theorem C9_header_rejected (m : List Nat)
    (h : m.length < 8 ∨
      (m.getD 0 0 ≠ 0x00 ∨ m.getD 1 0 ≠ 0x61 ∨ m.getD 2 0 ≠ 0x73 ∨
        m.getD 3 0 ≠ 0x6d) ∨
      m.getD 4 0 + 256 * m.getD 5 0 + 65536 * m.getD 6 0 +
        16777216 * m.getD 7 0 ≠ 1) :
    ∃ e, AddStartSection m = .error e ∧ ensureMagic m = .error e ∧
      (e = "file too small" ∨ e = "bad wasm magic" ∨
        e = "unsupported wasm version") := by
  have hem : ∃ e, ensureMagic m = .error e ∧
      (e = "file too small" ∨ e = "bad wasm magic" ∨
        e = "unsupported wasm version") := by
    unfold ensureMagic
    by_cases h1 : m.length < 8
    · rw [if_pos h1]
      exact ⟨_, rfl, Or.inl rfl⟩
    · rw [if_neg h1]
      by_cases h2 : m.getD 0 0 ≠ 0x00 ∨ m.getD 1 0 ≠ 0x61 ∨ m.getD 2 0 ≠ 0x73 ∨
          m.getD 3 0 ≠ 0x6d
      · rw [if_pos h2]
        exact ⟨_, rfl, Or.inr (Or.inl rfl)⟩
      · rw [if_neg h2]
        by_cases h3 : m.getD 4 0 + 256 * m.getD 5 0 + 65536 * m.getD 6 0 +
            16777216 * m.getD 7 0 ≠ 1
        · rw [if_pos h3]
          exact ⟨_, rfl, Or.inr (Or.inr rfl)⟩
        · exfalso
          rcases h with h | h | h
          · exact h1 h
          · exact h2 h
          · exact h3 h
  obtain ⟨e, he, hmem⟩ := hem
  refine ⟨e, ?_, he, hmem⟩
  unfold AddStartSection
  simp only [he]

/-- Witness for C9 on a 4-byte buffer. -/
theorem C9_header_rejected_witness :
    ∃ e, AddStartSection [0x00, 0x61, 0x73, 0x6d] = .error e ∧
      ensureMagic [0x00, 0x61, 0x73, 0x6d] = .error e ∧
      (e = "file too small" ∨ e = "bad wasm magic" ∨
        e = "unsupported wasm version") :=
  C9_header_rejected [0x00, 0x61, 0x73, 0x6d] (Or.inl (by decide))

end DprintWasm
